import Mathlib

/-!
Shallow embedding of the decision core of the Gateway repository:
the FNV-1a hash, the seven load-balancer strategies of
`createLoadBalancer` (loadbalancer.ts), and the four rate-limiter
middlewares (fixedWindow.ts, slidingWindow.ts, tokenBucket.ts,
leakyBucket.ts).  JS `Map`s become association lists with JS `Map.set`
replace-or-append semantics, JS numbers used as integers become `Int`,
JS numbers used fractionally (token/leaky bucket) become `ℚ`, and the
32-bit unsigned arithmetic of the hash is `Nat` reduced `% 2^32`.
-/

namespace Gateway

/-! ### Association-list model of a JS Map -/

/-- Lookup in the association-list model of a JS `Map` (`Map.get`). -/
def aget {β : Type} : List (String × β) → String → Option β
  | [], _ => none
  | (k, v) :: rest, key => if k = key then some v else aget rest key

/-- Update in the association-list model of a JS `Map` (`Map.set`):
replace the binding if the key is present, else append. -/
def aset {β : Type} : List (String × β) → String → β → List (String × β)
  | [], key, v => [(key, v)]
  | (k, w) :: rest, key, v =>
      if k = key then (key, v) :: rest else (k, w) :: aset rest key v

/-! ### Requests and client-key extraction -/

/-- The part of an Express request the decision core reads: the
`X-Client-ID` header (`none` when the header is absent) and `req.ip`
(`none` when Express cannot determine a remote address). -/
structure Request where
  header : Option String
  ip : Option String
deriving DecidableEq, Repr

/-- JS truthiness filter for an optional string: `undefined` and the
empty string are falsy, everything else passes through. -/
def jsTruthy : Option String → Option String
  | none => none
  | some s => if s = "" then none else some s

/-- The client key computation `req.header("X-Client-ID") || req.ip`
shared by all four rate limiters: header first, network address as
fallback, `none` when both are falsy. -/
def clientKeyOpt (req : Request) : Option String :=
  match jsTruthy req.header with
  | some h => some h
  | none => jsTruthy req.ip

/-- The load-balancer key `req.header("X-Client-ID") || req.ip || ""`
used by the ip-hash and consistent-hash strategies: like
`clientKeyOpt` but falling back to the empty string. -/
def lbClientKey (req : Request) : String :=
  (clientKeyOpt req).getD ""

/-- Outcome of a middleware call: pass the request on (`next`) or
terminate it with an HTTP status code and a JSON error message. -/
inductive Outcome where
  | next
  | reject (status : Nat) (body : String)
deriving DecidableEq, Repr

/-! ### FNV-1a hash (loadbalancer.ts `fnv1aHash`) -/

/-- One step of the FNV-1a loop: `h ^= code; h = Math.imul(h, 16777619) >>> 0`,
on 32-bit unsigned numbers. -/
def fnv1aStep (h code : Nat) : Nat :=
  (Nat.xor h code * 16777619) % 4294967296

/-- The 32-bit FNV-1a hash of a string, folding `fnv1aStep` over the
character codes starting from the offset basis 2166136261. -/
def fnv1aHash (s : String) : Nat :=
  s.data.foldl (fun h c => fnv1aStep h c.toNat) 2166136261

/-! ### Simple strategies: round-robin, random, ip-hash -/

/-- One `pickTarget` call of the round-robin strategy: return
`servers[idx % servers.length]` and the advanced cursor. -/
def rrPick (servers : List String) (idx : Nat) : String × Nat :=
  (servers.getD (idx % servers.length) "", (idx + 1) % servers.length)

/-- One `pickTarget` call of the random strategy,
`servers[Math.floor(r * servers.length)]`, with the value of
`Math.random()` passed in as the rational `r`. -/
def randomPick (servers : List String) (r : ℚ) : String :=
  servers.getD (⌊r * (servers.length : ℚ)⌋).toNat ""

/-- One `pickTarget` call of the ip-hash strategy:
`servers[fnv1aHash(key) % servers.length]`. -/
def ipHashPick (servers : List String) (key : String) : String :=
  servers.getD (fnv1aHash key % servers.length) ""

/-! ### Smooth weighted round robin -/

/-- The argmax scan of the weighted-round-robin `pickTarget`:
`best = 0; for i: if (current[i] > current[best]) best = i` — the first
index holding the maximum wins. -/
def wrrBest (cur : List Int) : Nat :=
  cur.enum.foldl (fun best p => if p.2 > cur.getD best 0 then p.1 else best) 0

/-- One `pickTarget` call of the smooth weighted-round-robin strategy:
add each weight to its counter, select the first maximal counter,
subtract the total weight from it.  Returns the new counters and the
selected index. -/
def wrrStep (ws cur : List Int) : List Int × Nat :=
  let cur2 := List.zipWith (· + ·) cur ws
  let total := ws.foldl (· + ·) 0
  let best := wrrBest cur2
  (cur2.set best (cur2.getD best 0 - total), best)

/-! ### Least connections and weighted least connections -/

/-- The scan of the least-connections `pickTarget` over the server list,
carrying the current best server and its count; strict `<` keeps the
first server on ties. -/
def lcScan (counts : List (String × Int)) :
    List String → String → Int → String
  | [], best, _ => best
  | s :: rest, best, bestCount =>
      let c := (aget counts s).getD 0
      if c < bestCount then lcScan counts rest s c
      else lcScan counts rest best bestCount

/-- One `pickTarget` call of the least-connections strategy: scan all
servers for the smallest active count, increment the winner. -/
def lcSelect (servers : List String) (counts : List (String × Int)) :
    String × List (String × Int) :=
  let b0 := servers.headD ""
  let best := lcScan counts servers b0 ((aget counts b0).getD 0)
  (best, aset counts best ((aget counts best).getD 0 + 1))

/-- The `release` call of both connection-tracking strategies:
`counts.set(target, Math.max(0, (counts.get(target) ?? 1) - 1))`. -/
def lcRelease (counts : List (String × Int)) (target : String) :
    List (String × Int) :=
  aset counts target (max 0 ((aget counts target).getD 1 - 1))

/-- The weight actually used by weighted least connections:
`ws[i] || 1`, i.e. a zero weight is replaced by 1. -/
def wlcWeight (w : Int) : ℚ :=
  if w = 0 then 1 else (w : ℚ)

/-- The scan of the weighted-least-connections `pickTarget` over the
remaining (server, weight) pairs, comparing `count / weight` scores. -/
def wlcScan (counts : List (String × Int)) :
    List (String × Int) → String → ℚ → String
  | [], best, _ => best
  | (s, w) :: rest, best, bestScore =>
      let score : ℚ := (((aget counts s).getD 0 : Int) : ℚ) / wlcWeight w
      if score < bestScore then wlcScan counts rest s score
      else wlcScan counts rest best bestScore

/-- One `pickTarget` call of the weighted-least-connections strategy:
start from `servers[0]` and scan indices `1..n-1` for the smallest
`count / weight` score, then increment the winner. -/
def wlcSelect (servers : List String) (ws : List Int)
    (counts : List (String × Int)) : String × List (String × Int) :=
  let b0 := servers.headD ""
  let s0 : ℚ := (((aget counts b0).getD 0 : Int) : ℚ) / wlcWeight (ws.headD 1)
  let best := wlcScan counts ((servers.zip ws).drop 1) b0 s0
  (best, aset counts best ((aget counts best).getD 0 + 1))

/-! ### Consistent hashing: ring construction and lookup -/

/-- One virtual node of the hash ring: a 32-bit hash paired with the
backend it stands for. -/
structure RingEntry where
  hash : Nat
  server : String
deriving DecidableEq, Repr

instance : Inhabited RingEntry := ⟨⟨0, ""⟩⟩

/-- Number of virtual nodes per backend (`VNODE` in loadbalancer.ts). -/
def VNODE : Nat := 100

/-- Ring construction: hash the synthetic names `server#0 .. server#99`
for every server and sort all entries ascending by hash
(`ring.sort((a, b) => a.hash - b.hash)`). -/
def buildRing (servers : List String) : List RingEntry :=
  (servers.flatMap (fun server =>
    (List.range VNODE).map (fun v =>
      ⟨fnv1aHash (server ++ "#" ++ toString v), server⟩))).mergeSort
    (fun a b => a.hash ≤ b.hash)

/-- The binary-search loop of the consistent-hash `pickTarget`:
`while (lo < hi) { mid = ⌊(lo+hi)/2⌋; if (ring[mid].hash >= h) hi = mid
else lo = mid + 1 }`, returning the final `lo`. -/
def bsearchLoop (ring : List RingEntry) (h lo hi : Nat) : Nat :=
  if _hlt : lo < hi then
    let mid := (lo + hi) / 2
    if h ≤ (ring.getD mid default).hash then bsearchLoop ring h lo mid
    else bsearchLoop ring h (mid + 1) hi
  else lo
termination_by hi - lo
decreasing_by all_goals omega

/-- The consistent-hash lookup on an already-built ring, for an
arbitrary key hash `h`: empty ring falls back to `servers[0]`; a hash
at or below the smallest ring hash, or above the largest, wraps to the
first ring entry; otherwise binary search. -/
def consistentLookup (servers : List String) (ring : List RingEntry)
    (h : Nat) : String :=
  if ring.length = 0 then servers.headD ""
  else if h ≤ (ring.getD 0 default).hash ∨
      (ring.getD (ring.length - 1) default).hash < h then
    (ring.getD 0 default).server
  else (ring.getD (bsearchLoop ring h 0 (ring.length - 1)) default).server

/-- One `pickTarget` call of the consistent-hash strategy: hash the
client key of the request and look it up on the ring built from the
servers. -/
def consistentPick (servers : List String) (req : Request) : String :=
  consistentLookup servers (buildRing servers) (fnv1aHash (lbClientKey req))

/-- Linear-scan reference for the ring lookup, written from the spec's
words: the first ring entry whose hash is at least the key's hash, the
first ring entry when no entry qualifies. -/
def refLookup (ring : List RingEntry) (h : Nat) : String :=
  match ring.find? (fun e => h ≤ e.hash) with
  | some e => e.server
  | none => (ring.headD default).server

/-! ### Balancer construction -/

/-- The strategy names accepted by `createLoadBalancer`; `other` stands
for any unrecognized name, which falls back to round robin. -/
inductive Strategy where
  | roundRobin
  | random
  | leastConnections
  | weightedRoundRobin
  | weightedLeastConnections
  | ipHash
  | consistentHash
  | other
deriving DecidableEq, Repr

/-- The per-strategy mutable state a freshly constructed balancer
holds. -/
inductive LBState where
  | cursor (idx : Nat)
  | counters (cur : List Int)
  | connCounts (counts : List (String × Int))
  | stateless
deriving DecidableEq, Repr

/-- The weight normalization of `createLoadBalancer`: the given weights
when their length matches the server list, otherwise all ones. -/
def normWeights (servers : List String) (weights : Option (List Int)) :
    List Int :=
  match weights with
  | some ws => if ws.length = servers.length then ws else servers.map (fun _ => 1)
  | none => servers.map (fun _ => 1)

/-- Construction of a balancer (`createLoadBalancer`): an empty server
list throws `"No backend servers provided"`; otherwise the strategy's
initial state is built. -/
def createLoadBalancer (strategy : Strategy) (servers : List String)
    (_weights : Option (List Int)) : Except String LBState :=
  if servers.length = 0 then .error "No backend servers provided"
  else .ok (match strategy with
    | .roundRobin => .cursor 0
    | .random => .stateless
    | .leastConnections => .connCounts (servers.foldl (fun m s => aset m s 0) [])
    | .weightedRoundRobin => .counters (servers.map (fun _ => 0))
    | .weightedLeastConnections =>
        .connCounts (servers.foldl (fun m s => aset m s 0) [])
    | .ipHash => .stateless
    | .consistentHash => .stateless
    | .other => .cursor 0)

/-! ### Fixed-window limiter (fixedWindow.ts) -/

/-- Per-client fixed-window state: request count and window start. -/
structure ClientRecord where
  count : Nat
  windowStart : Int
deriving DecidableEq, Repr

/-- Window length of the fixed-window limiter, in milliseconds. -/
def WINDOW_SIZE_IN_MS : Int := 60000

/-- Maximum admitted requests per fixed window. -/
def MAX_REQUESTS_PER_WINDOW : Nat := 5

/-- The admission decision of the fixed-window limiter on one client's
record: create on first sight, reset on an expired window, increment
below the limit, deny at the limit. -/
def fwAdmit (record : Option ClientRecord) (now : Int) :
    Bool × ClientRecord :=
  match record with
  | none => (true, ⟨1, now⟩)
  | some r =>
      if now - r.windowStart > WINDOW_SIZE_IN_MS then (true, ⟨1, now⟩)
      else if r.count < MAX_REQUESTS_PER_WINDOW then
        (true, ⟨r.count + 1, r.windowStart⟩)
      else (false, r)

/-- The fixed-window middleware `rateLimiter`: derive the client key
(400 when missing, map untouched), apply `fwAdmit`, store the updated
record only on admission; denial leaves the map unchanged. -/
def rateLimiter (req : Request) (clients : List (String × ClientRecord))
    (now : Int) : Outcome × List (String × ClientRecord) :=
  match clientKeyOpt req with
  | none => (.reject 400 "Unable to determine client IP", clients)
  | some key =>
      match fwAdmit (aget clients key) now with
      | (true, r) => (.next, aset clients key r)
      | (false, _) => (.reject 429 "Rate limit exceeded", clients)

/-! ### Sliding-window-log limiter (slidingWindow.ts) -/

/-- Window length of the sliding-window-log limiter, in milliseconds. -/
def SW_WINDOW_SIZE : Int := 5000

/-- Maximum requests per sliding window. -/
def SW_MAX_REQUESTS : Nat := 2

/-- The sliding-window-log middleware: prune timestamps older than
`now - WINDOW_SIZE` from a working copy, deny (leaving the stored log
untouched) when the pruned count reaches the limit, otherwise store the
pruned log with `now` appended. -/
def slidingWindowLogRateLimiter (req : Request)
    (clients : List (String × List Int)) (now : Int) :
    Outcome × List (String × List Int) :=
  match clientKeyOpt req with
  | none => (.reject 400 "Unable to determine client ID", clients)
  | some key =>
      let timestamps := (aget clients key).getD []
      let fresh := timestamps.filter (fun ts => now - ts ≤ SW_WINDOW_SIZE)
      if fresh.length ≥ SW_MAX_REQUESTS then
        (.reject 429 "Rate limit exceeded", clients)
      else (.next, aset clients key (fresh ++ [now]))

/-! ### Token-bucket limiter (tokenBucket.ts) -/

/-- Tokens refilled per second. -/
def REFILL_RATE : ℚ := 1 / 2

/-- Token-bucket capacity. -/
def TB_BUCKET_CAPACITY : ℚ := 5

/-- Per-client token-bucket state: fractional token count and the time
of the last refill. -/
structure TokenBucket where
  tokens : ℚ
  lastRefill : Int
deriving DecidableEq, Repr

/-- The refill-then-consume step of the token bucket on one bucket:
add `elapsedSeconds × REFILL_RATE` tokens clamped at capacity, stamp
`lastRefill = now`, then consume one token exactly when at least one is
available. -/
def tbAdmit (bucket : TokenBucket) (now : Int) : Bool × TokenBucket :=
  let elapsedSeconds : ℚ := ((now : ℚ) - (bucket.lastRefill : ℚ)) / 1000
  let tokens := min TB_BUCKET_CAPACITY (bucket.tokens + elapsedSeconds * REFILL_RATE)
  if tokens ≥ 1 then (true, ⟨tokens - 1, now⟩)
  else (false, ⟨tokens, now⟩)

/-- The token-bucket middleware: missing key gives 400 with the map
untouched; otherwise the bucket (created full on first sight) is
refilled and consumed, and the mutated bucket object persists in the
map on admission and on denial alike. -/
def tokenBucketRateLimiter (req : Request)
    (clients : List (String × TokenBucket)) (now : Int) :
    Outcome × List (String × TokenBucket) :=
  match clientKeyOpt req with
  | none => (.reject 400 "No client ID", clients)
  | some key =>
      let bucket := (aget clients key).getD ⟨TB_BUCKET_CAPACITY, now⟩
      match tbAdmit bucket now with
      | (true, b) => (.next, aset clients key b)
      | (false, b) => (.reject 429 "Rate limit exceeded", aset clients key b)

/-! ### Leaky-bucket limiter (leakyBucket.ts) -/

/-- Requests leaked per second. -/
def LEAK_RATE : ℚ := 1

/-- Leaky-bucket capacity. -/
def LB_BUCKET_CAPACITY : Int := 5

/-- Per-client leaky-bucket state: current queue depth and the time of
the last leak. -/
structure LeakyBucket where
  queue : Int
  lastLeak : Int
deriving DecidableEq, Repr

/-- The leak-then-enqueue step of the leaky bucket on one bucket:
subtract `⌊elapsedSeconds × LEAK_RATE⌋` from the queue clamped at 0,
stamp `lastLeak = now` unconditionally, then enqueue exactly when the
queue is below capacity. -/
def lbAdmit (bucket : LeakyBucket) (now : Int) : Bool × LeakyBucket :=
  let elapsedSeconds : ℚ := ((now : ℚ) - (bucket.lastLeak : ℚ)) / 1000
  let leaked : Int := ⌊elapsedSeconds * LEAK_RATE⌋
  let queue := max 0 (bucket.queue - leaked)
  if queue < LB_BUCKET_CAPACITY then (true, ⟨queue + 1, now⟩)
  else (false, ⟨queue, now⟩)

/-- The leaky-bucket middleware: missing key gives 400 with the map
untouched; otherwise the bucket (created empty on first sight) is
leaked and possibly enqueued, and the mutated bucket object persists in
the map on admission and on denial alike. -/
def leakyBucketRateLimiter (req : Request)
    (clients : List (String × LeakyBucket)) (now : Int) :
    Outcome × List (String × LeakyBucket) :=
  match clientKeyOpt req with
  | none => (.reject 400 "No client ID", clients)
  | some key =>
      let bucket := (aget clients key).getD ⟨0, now⟩
      match lbAdmit bucket now with
      | (true, b) => (.next, aset clients key b)
      | (false, b) => (.reject 429 "Rate limit exceeded", aset clients key b)

/-! ### Weighted round robin with weights [5,1,1]: trace definitions -/

/-- The weight vector of the spec's weighted-round-robin scenario. -/
def wrrWeights : List Int := [5, 1, 1]

/-- Counter state of the [5,1,1] scheduler after `n` selections,
starting from the freshly constructed all-zero counters. -/
def wrrState : Nat → List Int
  | 0 => [0, 0, 0]
  | n + 1 => (wrrStep wrrWeights (wrrState n)).1

/-- Index selected by the [5,1,1] scheduler at (0-based) selection
`n`. -/
def wrrPickN (n : Nat) : Nat :=
  (wrrStep wrrWeights (wrrState n)).2

/-- The window of 7 consecutive selections starting at selection `k`. -/
def wrrWindow (k : Nat) : List Nat :=
  (List.range 7).map (fun i => wrrPickN (k + i))

theorem wrrState_period (n : Nat) : wrrState (n + 7) = wrrState n := by
  induction n with
  | zero => decide
  | succ n ih =>
      show (wrrStep wrrWeights (wrrState (n + 7))).1 = wrrState (n + 1)
      rw [ih]
      rfl

theorem wrrPickN_period (n : Nat) : wrrPickN (n + 7) = wrrPickN n := by
  unfold wrrPickN
  rw [wrrState_period]

theorem wrrWindow_shift (k : Nat) (v : Nat) :
    (wrrWindow (k + 1)).count v = (wrrWindow k).count v := by
  have hsplit : wrrWindow (k + 1) =
      ((List.range 6).map (fun i => wrrPickN (k + 1 + i))) ++ [wrrPickN (k + 7)] := by
    unfold wrrWindow
    rw [show (7 : Nat) = 6 + 1 from rfl, List.range_succ, List.map_append]
    simp [Nat.add_comm, Nat.add_assoc, Nat.add_left_comm]
  have hcons : wrrWindow k =
      wrrPickN k :: ((List.range 6).map (fun i => wrrPickN (k + 1 + i))) := by
    unfold wrrWindow
    rw [show (7 : Nat) = 6 + 1 from rfl, List.range_succ_eq_map]
    simp only [List.map_cons, List.map_map, Nat.add_zero]
    congr 1
  rw [hsplit, hcons, wrrPickN_period]
  simp [List.count_append, List.count_cons]

theorem wrrWindow_counts (k : Nat) :
    (wrrWindow k).count 0 = 5 ∧ (wrrWindow k).count 1 = 1 ∧
      (wrrWindow k).count 2 = 1 := by
  induction k with
  | zero => decide
  | succ k ih =>
      rcases ih with ⟨h0, h1, h2⟩
      exact ⟨by rw [wrrWindow_shift, h0], by rw [wrrWindow_shift, h1],
        by rw [wrrWindow_shift, h2]⟩

/-- Claim C2, counterexample: the first two selections of the [5,1,1]
smooth weighted-round-robin scheduler are both backend A (index 0),
while at the second selection the post-increment counters are [3, 2, 2],
so lower-counter alternatives (B at 2 < 3) exist — refuting "no two
consecutive picks are both A when a lower-counter alternative exists". -/
theorem claim_C2_counterexample :
    wrrPickN 0 = 0 ∧ wrrPickN 1 = 0 ∧
      List.zipWith (· + ·) (wrrState 1) wrrWeights = [3, 2, 2] ∧
      (List.zipWith (· + ·) (wrrState 1) wrrWeights).getD 1 0 <
        (List.zipWith (· + ·) (wrrState 1) wrrWeights).getD 0 0 := by
  decide

/-- Claim C2 (amended): with weights [5,1,1] over [A,B,C] from the
all-zero state, every window of 7 consecutive selections picks A (index
0) exactly 5 times and B and C exactly once each, and the selection
sequence has period 7; however consecutive picks of A do occur — the
first two selections are both A. -/
theorem claim_C2_weighted_round_robin (k n : Nat) :
    ((wrrWindow k).count 0 = 5 ∧ (wrrWindow k).count 1 = 1 ∧
      (wrrWindow k).count 2 = 1) ∧
      wrrPickN (n + 7) = wrrPickN n ∧
      (wrrPickN 0 = 0 ∧ wrrPickN 1 = 0) :=
  ⟨wrrWindow_counts k, wrrPickN_period n, by decide⟩

/-! ### Traces of repeated middleware calls -/

/-- Run the fixed-window middleware over a list of call times,
threading the client map; returns the outcomes and the final map. -/
def fwTrace (req : Request) (clients : List (String × ClientRecord)) :
    List Int → List Outcome × List (String × ClientRecord)
  | [] => ([], clients)
  | t :: ts =>
      ((rateLimiter req clients t).1 ::
        (fwTrace req (rateLimiter req clients t).2 ts).1,
       (fwTrace req (rateLimiter req clients t).2 ts).2)

/-- Claim C3: a fresh client under the fixed-window limiter
(window 60000 ms, max 5): five calls inside the first call's window all
admit, the sixth inside the window denies leaving the record at
count 5 with the original window start, and a call after the window has
passed admits with the counter reset to 1 and the window restarted. -/
theorem claim_C3_fixed_window (t1 t2 t3 t4 t5 t6 t7 : Int)
    (h2 : t2 - t1 ≤ 60000) (h3 : t3 - t1 ≤ 60000) (h4 : t4 - t1 ≤ 60000)
    (h5 : t5 - t1 ≤ 60000) (h6 : t6 - t1 ≤ 60000) (h7 : t7 - t1 > 60000) :
    fwTrace ⟨some "C", none⟩ [] [t1, t2, t3, t4, t5, t6] =
      ([.next, .next, .next, .next, .next, .reject 429 "Rate limit exceeded"],
        [("C", ⟨5, t1⟩)]) ∧
    fwTrace ⟨some "C", none⟩ [] [t1, t2, t3, t4, t5, t6, t7] =
      ([.next, .next, .next, .next, .next, .reject 429 "Rate limit exceeded",
        .next], [("C", ⟨1, t7⟩)]) := by
  have s1 : rateLimiter ⟨some "C", none⟩ [] t1 = (.next, [("C", ⟨1, t1⟩)]) := by
    simp [rateLimiter, clientKeyOpt, jsTruthy, aget, aset, fwAdmit]
  have step : ∀ (c : Nat) (now : Int), ¬ now - t1 > 60000 → c < 5 →
      rateLimiter ⟨some "C", none⟩ [("C", ⟨c, t1⟩)] now =
        (.next, [("C", ⟨c + 1, t1⟩)]) := by
    intro c now hnow hc
    simp [rateLimiter, clientKeyOpt, jsTruthy, aget, aset, fwAdmit,
      WINDOW_SIZE_IN_MS, MAX_REQUESTS_PER_WINDOW, hnow, hc]
  have s2 := step 1 t2 (by omega) (by omega)
  have s3 := step 2 t3 (by omega) (by omega)
  have s4 := step 3 t4 (by omega) (by omega)
  have s5 := step 4 t5 (by omega) (by omega)
  have s6 : rateLimiter ⟨some "C", none⟩ [("C", ⟨5, t1⟩)] t6 =
      (.reject 429 "Rate limit exceeded", [("C", ⟨5, t1⟩)]) := by
    simp [rateLimiter, clientKeyOpt, jsTruthy, aget, aset, fwAdmit,
      WINDOW_SIZE_IN_MS, MAX_REQUESTS_PER_WINDOW,
      show ¬ t6 - t1 > 60000 by omega]
  have s7 : rateLimiter ⟨some "C", none⟩ [("C", ⟨5, t1⟩)] t7 =
      (.next, [("C", ⟨1, t7⟩)]) := by
    simp [rateLimiter, clientKeyOpt, jsTruthy, aget, aset, fwAdmit,
      WINDOW_SIZE_IN_MS, MAX_REQUESTS_PER_WINDOW,
      show t7 - t1 > 60000 by omega]
  constructor
  · simp only [fwTrace, s1, s2, s3, s4, s5, s6]
  · simp only [fwTrace, s1, s2, s3, s4, s5, s6, s7]

/-- Witness for claim C3 at the concrete times
0, 1, 2, 3, 4, 5, 60001. -/
theorem claim_C3_fixed_window_witness :
    fwTrace ⟨some "C", none⟩ [] [0, 1, 2, 3, 4, 5] =
      ([.next, .next, .next, .next, .next, .reject 429 "Rate limit exceeded"],
        [("C", ⟨5, 0⟩)]) ∧
    fwTrace ⟨some "C", none⟩ [] [0, 1, 2, 3, 4, 5, 60001] =
      ([.next, .next, .next, .next, .next, .reject 429 "Rate limit exceeded",
        .next], [("C", ⟨1, 60001⟩)]) :=
  claim_C3_fixed_window 0 1 2 3 4 5 60001 (by decide) (by decide) (by decide)
    (by decide) (by decide) (by decide)

theorem clientKeyOpt_header (k : String) (hk : k ≠ "") (ip : Option String) :
    clientKeyOpt ⟨some k, ip⟩ = some k := by
  simp [clientKeyOpt, jsTruthy, hk]

theorem aget_aset_same {β : Type} (m : List (String × β)) (k : String)
    (v : β) : aget (aset m k v) k = some v := by
  induction m with
  | nil => simp [aget, aset]
  | cons p rest ih =>
      obtain ⟨k', w⟩ := p
      by_cases h : k' = k
      · simp [aget, aset, h]
      · simp [aget, aset, h, ih]

theorem aget_aset_ne {β : Type} (m : List (String × β)) (k k' : String)
    (v : β) (h : k ≠ k') : aget (aset m k v) k' = aget m k' := by
  induction m with
  | nil => simp [aget, aset, h]
  | cons p rest ih =>
      obtain ⟨k0, w⟩ := p
      by_cases h0 : k0 = k
      · subst h0
        simp [aget, aset, h]
      · simp [aget, aset, h0, ih]

/-- Run the token-bucket middleware over a list of call times. -/
def tbTrace (req : Request) (clients : List (String × TokenBucket)) :
    List Int → List Outcome × List (String × TokenBucket)
  | [] => ([], clients)
  | t :: ts =>
      ((tokenBucketRateLimiter req clients t).1 ::
        (tbTrace req (tokenBucketRateLimiter req clients t).2 ts).1,
       (tbTrace req (tokenBucketRateLimiter req clients t).2 ts).2)

/-- Claim C4: a fresh client under the token bucket (capacity 5,
refill 0.5 tokens/s): five calls at one instant all admit (the bucket
is created full and each admission consumes exactly one token), a sixth
at the same instant denies leaving the token count at 0, after 2000 ms
exactly one more call admits, and another call at that same instant
denies again. -/
theorem claim_C4_token_bucket (t0 : Int) :
    tbTrace ⟨some "C", none⟩ [] [t0, t0, t0, t0, t0, t0, t0 + 2000, t0 + 2000] =
      ([.next, .next, .next, .next, .next, .reject 429 "Rate limit exceeded",
        .next, .reject 429 "Rate limit exceeded"],
       [("C", ⟨0, t0 + 2000⟩)]) := by
  have admit0 : ∀ c : ℚ, c ≤ 5 → 1 ≤ c →
      tokenBucketRateLimiter ⟨some "C", none⟩ [("C", ⟨c, t0⟩)] t0 =
        (.next, [("C", ⟨c - 1, t0⟩)]) := by
    intro c hc5 hc1
    simp [tokenBucketRateLimiter, clientKeyOpt_header, aget, aset,
      tbAdmit, TB_BUCKET_CAPACITY, REFILL_RATE, hc1, min_eq_right hc5]
  have s1 : tokenBucketRateLimiter ⟨some "C", none⟩ [] t0 =
      (.next, [("C", ⟨4, t0⟩)]) := by
    simp [tokenBucketRateLimiter, clientKeyOpt_header, aget, aset,
      tbAdmit, TB_BUCKET_CAPACITY, REFILL_RATE]
    norm_num
  have s2 := admit0 4 (by norm_num) (by norm_num)
  have s3 := admit0 3 (by norm_num) (by norm_num)
  have s4 := admit0 2 (by norm_num) (by norm_num)
  have s5 := admit0 1 (by norm_num) (by norm_num)
  have s6 : tokenBucketRateLimiter ⟨some "C", none⟩ [("C", ⟨0, t0⟩)] t0 =
      (.reject 429 "Rate limit exceeded", [("C", ⟨0, t0⟩)]) := by
    simp [tokenBucketRateLimiter, clientKeyOpt_header, aget, aset,
      tbAdmit, TB_BUCKET_CAPACITY, REFILL_RATE]
    norm_num
  have s7 : tokenBucketRateLimiter ⟨some "C", none⟩ [("C", ⟨0, t0⟩)]
      (t0 + 2000) = (.next, [("C", ⟨0, t0 + 2000⟩)]) := by
    simp [tokenBucketRateLimiter, clientKeyOpt_header, aget, aset,
      tbAdmit, TB_BUCKET_CAPACITY, REFILL_RATE]
    norm_num
  have s8 : tokenBucketRateLimiter ⟨some "C", none⟩ [("C", ⟨0, t0 + 2000⟩)]
      (t0 + 2000) = (.reject 429 "Rate limit exceeded",
        [("C", ⟨0, t0 + 2000⟩)]) := by
    simp [tokenBucketRateLimiter, clientKeyOpt_header, aget, aset,
      tbAdmit, TB_BUCKET_CAPACITY, REFILL_RATE]
    norm_num
  have e23 : (4 : ℚ) - 1 = 3 := by norm_num
  have e34 : (3 : ℚ) - 1 = 2 := by norm_num
  have e45 : (2 : ℚ) - 1 = 1 := by norm_num
  have e56 : (1 : ℚ) - 1 = 0 := by norm_num
  simp only [tbTrace, s1, s2, s3, s4, s5, s6, s7, s8, e23, e34, e45, e56]

/-- Run the sliding-window-log middleware over a list of call times. -/
def swTrace (req : Request) (clients : List (String × List Int)) :
    List Int → List Outcome × List (String × List Int)
  | [] => ([], clients)
  | t :: ts =>
      ((slidingWindowLogRateLimiter req clients t).1 ::
        (swTrace req (slidingWindowLogRateLimiter req clients t).2 ts).1,
       (swTrace req (slidingWindowLogRateLimiter req clients t).2 ts).2)

/-- Claim C5: the sliding-window-log limiter (window 5000 ms, max 2)
admits exactly when the pruned timestamp count is below the limit, a
denied call leaves the stored log untouched, an admitted call stores
the pruned log with exactly `now` appended, and the concrete trace at
times 0, 0, 100, 5100 is admit, admit, deny, admit. -/
theorem claim_C5_sliding_window_log (req : Request)
    (clients : List (String × List Int)) (now : Int) (k : String)
    (hk : clientKeyOpt req = some k) :
    (((((aget clients k).getD []).filter
          (fun ts => now - ts ≤ SW_WINDOW_SIZE)).length ≥ SW_MAX_REQUESTS →
        slidingWindowLogRateLimiter req clients now =
          (.reject 429 "Rate limit exceeded", clients)) ∧
     (¬ ((((aget clients k).getD []).filter
          (fun ts => now - ts ≤ SW_WINDOW_SIZE)).length ≥ SW_MAX_REQUESTS) →
        (slidingWindowLogRateLimiter req clients now).1 = .next ∧
          aget (slidingWindowLogRateLimiter req clients now).2 k =
            some ((((aget clients k).getD []).filter
              (fun ts => now - ts ≤ SW_WINDOW_SIZE)) ++ [now]))) ∧
    swTrace ⟨some "C", none⟩ [] [0, 0, 100, 5100] =
      ([.next, .next, .reject 429 "Rate limit exceeded", .next],
        [("C", [5100])]) := by
  constructor
  · constructor
    · intro hge
      simp only [slidingWindowLogRateLimiter, hk]
      rw [if_pos hge]
    · intro hlt
      simp only [slidingWindowLogRateLimiter, hk]
      rw [if_neg hlt]
      exact ⟨rfl, aget_aset_same ..⟩
  · decide

/-- Witness for claim C5: the pruned-count hypotheses discharged at the
concrete log [0, 0] with the call at time 100 (denied, log kept) and at
the empty log with a call at time 0 (admitted, log becomes [0]). -/
theorem claim_C5_sliding_window_log_witness :
    slidingWindowLogRateLimiter ⟨some "C", none⟩ [("C", [0, 0])] 100 =
      (.reject 429 "Rate limit exceeded", [("C", [0, 0])]) ∧
    ((slidingWindowLogRateLimiter ⟨some "C", none⟩ [] 0).1 = .next ∧
      aget (slidingWindowLogRateLimiter ⟨some "C", none⟩ [] 0).2 "C" =
        some [(0 : Int)]) := by
  constructor
  · exact (claim_C5_sliding_window_log ⟨some "C", none⟩ [("C", [0, 0])] 100 "C"
      (by decide)).1.1 (by decide)
  · have h := (claim_C5_sliding_window_log ⟨some "C", none⟩ [] 0 "C"
      (by decide)).1.2 (by decide)
    simpa using h

/-- Run the leaky-bucket admission over a list of call times, threading
one client's bucket. -/
def lbRunB (b : LeakyBucket) : List Int → List Bool × LeakyBucket
  | [] => ([], b)
  | t :: ts =>
      ((lbAdmit b t).1 :: (lbRunB (lbAdmit b t).2 ts).1,
       (lbRunB (lbAdmit b t).2 ts).2)

/-- Boolean chain condition: each successive call time is at least the
previous stamp and strictly less than 1000 ms after it. -/
def spaced : Int → List Int → Bool
  | _, [] => true
  | last, t :: ts => (decide (last ≤ t) && decide (t - last < 1000)) && spaced t ts

theorem lbAdmit_floor_zero (l t : Int) (h0 : 0 ≤ t - l) (h1 : t - l < 1000) :
    (⌊(((t : ℚ) - (l : ℚ)) / 1000) * LEAK_RATE⌋ : Int) = 0 := by
  rw [LEAK_RATE, mul_one, Int.floor_eq_zero_iff]
  constructor
  · apply div_nonneg
    · exact_mod_cast sub_nonneg.mpr (by omega)
    · norm_num
  · rw [div_lt_one (by norm_num)]
    exact_mod_cast (by omega : t - l < 1000)

/-- Claim C9: the leaky bucket stamps `lastLeak = now` on every call
even when the computed leak is zero, so between calls less than one
second apart (at leak rate 1/s) the queue never decreases, and a client
whose bucket is full stays denied forever under any such call
pattern. -/
theorem claim_C9_leaky_bucket_truncation :
    (∀ (b : LeakyBucket) (now : Int), (lbAdmit b now).2.lastLeak = now) ∧
    (∀ (b : LeakyBucket) (now : Int), 0 ≤ now - b.lastLeak →
      now - b.lastLeak < 1000 → b.queue ≤ (lbAdmit b now).2.queue) ∧
    (∀ (b : LeakyBucket) (ts : List Int), b.queue = LB_BUCKET_CAPACITY →
      spaced b.lastLeak ts = true →
      (lbRunB b ts).1 = ts.map (fun _ => false) ∧
        (lbRunB b ts).2.queue = LB_BUCKET_CAPACITY) := by
  refine ⟨?_, ?_, ?_⟩
  · intro b now
    simp only [lbAdmit]
    split <;> rfl
  · intro b now h0 h1
    simp only [lbAdmit]
    rw [lbAdmit_floor_zero b.lastLeak now h0 h1]
    split <;> simp
    all_goals omega
  · intro b ts
    induction ts generalizing b with
    | nil => intro _ _; exact ⟨rfl, by simpa [lbRunB]⟩
    | cons t rest ih =>
        intro hq hsp
        simp only [spaced, Bool.and_eq_true, decide_eq_true_eq] at hsp
        obtain ⟨⟨hle, hlt⟩, hrest⟩ := hsp
        have hstep : lbAdmit b t = (false, ⟨LB_BUCKET_CAPACITY, t⟩) := by
          simp only [lbAdmit]
          rw [lbAdmit_floor_zero b.lastLeak t (by omega) hlt, hq]
          norm_num [LB_BUCKET_CAPACITY]
        have hr := ih ⟨LB_BUCKET_CAPACITY, t⟩ rfl (by simpa using hrest)
        simp only [lbRunB, hstep, List.map_cons]
        exact ⟨by rw [hr.1], hr.2⟩

/-- Witness for claim C9: a full bucket stamped at time 0, with calls
at 500 and 999 ms — both denied, queue still full, stamps advanced. -/
theorem claim_C9_leaky_bucket_truncation_witness :
    (lbAdmit ⟨5, 0⟩ 500).2.lastLeak = 500 ∧
    (5 : Int) ≤ (lbAdmit ⟨5, 0⟩ 500).2.queue ∧
    ((lbRunB ⟨5, 0⟩ [500, 999]).1 = [false, false] ∧
      (lbRunB ⟨5, 0⟩ [500, 999]).2.queue = 5) := by
  refine ⟨claim_C9_leaky_bucket_truncation.1 ⟨5, 0⟩ 500, ?_, ?_⟩
  · exact claim_C9_leaky_bucket_truncation.2.1 ⟨5, 0⟩ 500 (by decide) (by decide)
  · have h := claim_C9_leaky_bucket_truncation.2.2 ⟨5, 0⟩ [500, 999] rfl
      (by decide)
    simpa using h

/-! ### Claim C8: client-key extraction across the rate limiters -/

/-- Claim C8: for every rate limiter the client key is the identity
header when present (verbatim, so keys are case-sensitive and "A" and
"a" are distinct clients), falling back to the network address; a
request with neither produces a 400 rejection with a JSON error body
from each of the four middlewares, with the per-client map unchanged. -/
theorem claim_C8_client_key (k : String) (hk : k ≠ "") :
    (∀ ip : Option String, clientKeyOpt ⟨some k, ip⟩ = some k) ∧
    (∀ ip : Option String, clientKeyOpt ⟨none, ip⟩ = jsTruthy ip) ∧
    clientKeyOpt ⟨some "A", none⟩ = some "A" ∧
    clientKeyOpt ⟨some "a", none⟩ = some "a" ∧
    (rateLimiter ⟨some "A", none⟩ [] 0).2 = [("A", ⟨1, 0⟩)] ∧
    aget (rateLimiter ⟨some "A", none⟩ [] 0).2 "a" = none ∧
    (∀ (clients : List (String × ClientRecord)) (now : Int),
      rateLimiter ⟨none, none⟩ clients now =
        (.reject 400 "Unable to determine client IP", clients)) ∧
    (∀ (clients : List (String × List Int)) (now : Int),
      slidingWindowLogRateLimiter ⟨none, none⟩ clients now =
        (.reject 400 "Unable to determine client ID", clients)) ∧
    (∀ (clients : List (String × TokenBucket)) (now : Int),
      tokenBucketRateLimiter ⟨none, none⟩ clients now =
        (.reject 400 "No client ID", clients)) ∧
    (∀ (clients : List (String × LeakyBucket)) (now : Int),
      leakyBucketRateLimiter ⟨none, none⟩ clients now =
        (.reject 400 "No client ID", clients)) := by
  refine ⟨fun ip => clientKeyOpt_header k hk ip, fun ip => rfl, by decide,
    by decide, by decide, by decide, fun clients now => rfl, fun clients now => rfl,
    fun clients now => rfl, fun clients now => rfl⟩

/-- Witness for claim C8 at the concrete header value "A". -/
theorem claim_C8_client_key_witness :
    clientKeyOpt ⟨some "A", some "9.9.9.9"⟩ = some "A" ∧
    clientKeyOpt ⟨none, none⟩ = none :=
  ⟨(claim_C8_client_key "A" (by decide)).1 (some "9.9.9.9"),
    ((claim_C8_client_key "A" (by decide)).2.1 none)⟩

/-! ### Membership helper lemmas -/

theorem getD_mem {α : Type} (l : List α) (i : Nat) (d : α)
    (h : i < l.length) : l.getD i d ∈ l := by
  rw [List.getD_eq_getElem l d h]
  exact List.getElem_mem h

theorem headD_mem {α : Type} (l : List α) (d : α) (h : l ≠ []) :
    l.headD d ∈ l := by
  cases l with
  | nil => exact absurd rfl h
  | cons a t => exact List.mem_cons_self a t

theorem ipHashPick_mem (servers : List String) (key : String)
    (h : servers ≠ []) : ipHashPick servers key ∈ servers := by
  apply getD_mem
  exact Nat.mod_lt _ (List.length_pos.mpr h)

theorem rrPick_mem (servers : List String) (idx : Nat) (h : servers ≠ []) :
    (rrPick servers idx).1 ∈ servers := by
  apply getD_mem
  exact Nat.mod_lt _ (List.length_pos.mpr h)

theorem randomPick_mem (servers : List String) (r : ℚ) (h : servers ≠ [])
    (_hr0 : 0 ≤ r) (hr1 : r < 1) : randomPick servers r ∈ servers := by
  apply getD_mem
  have hn : 0 < servers.length := List.length_pos.mpr h
  have hfl : ⌊r * (servers.length : ℚ)⌋ < (servers.length : Int) := by
    rw [Int.floor_lt]
    calc r * (servers.length : ℚ) < 1 * (servers.length : ℚ) := by
          apply mul_lt_mul_of_pos_right hr1
          exact_mod_cast hn
      _ = ((servers.length : Int) : ℚ) := by push_cast; ring
  omega

theorem lcScan_mem (counts : List (String × Int)) (l : List String)
    (best : String) (c : Int) :
    lcScan counts l best c = best ∨ lcScan counts l best c ∈ l := by
  induction l generalizing best c with
  | nil => exact Or.inl rfl
  | cons s rest ih =>
      simp only [lcScan]
      split
      · rcases ih s _ with h | h
        · exact Or.inr (by rw [h]; exact List.mem_cons_self s rest)
        · exact Or.inr (List.mem_cons_of_mem s h)
      · rcases ih best c with h | h
        · exact Or.inl h
        · exact Or.inr (List.mem_cons_of_mem s h)

theorem lcSelect_mem (servers : List String) (counts : List (String × Int))
    (h : servers ≠ []) : (lcSelect servers counts).1 ∈ servers := by
  have e : (lcSelect servers counts).1 =
      lcScan counts servers (servers.headD "")
        ((aget counts (servers.headD "")).getD 0) := rfl
  rw [e]
  rcases lcScan_mem counts servers (servers.headD "")
      ((aget counts (servers.headD "")).getD 0) with he | he
  · rw [he]
    exact headD_mem servers "" h
  · exact he

theorem wlcScan_mem (counts : List (String × Int))
    (pairs : List (String × Int)) (best : String) (sc : ℚ) :
    wlcScan counts pairs best sc = best ∨
      wlcScan counts pairs best sc ∈ pairs.map Prod.fst := by
  induction pairs generalizing best sc with
  | nil => exact Or.inl rfl
  | cons p rest ih =>
      obtain ⟨s, w⟩ := p
      simp only [wlcScan, List.map_cons]
      split
      · rcases ih s _ with h | h
        · exact Or.inr (by rw [h]; exact List.mem_cons_self s _)
        · exact Or.inr (List.mem_cons_of_mem s h)
      · rcases ih best sc with h | h
        · exact Or.inl h
        · exact Or.inr (List.mem_cons_of_mem s h)

theorem wlcSelect_mem (servers : List String) (ws : List Int)
    (counts : List (String × Int)) (h : servers ≠ []) :
    (wlcSelect servers ws counts).1 ∈ servers := by
  have e : (wlcSelect servers ws counts).1 =
      wlcScan counts ((servers.zip ws).drop 1) (servers.headD "")
        ((((aget counts (servers.headD "")).getD 0 : Int) : ℚ) /
          wlcWeight (ws.headD 1)) := rfl
  rw [e]
  rcases wlcScan_mem counts ((servers.zip ws).drop 1) (servers.headD "") _
      with he | he
  · rw [he]
    exact headD_mem servers "" h
  · rcases List.mem_map.mp he with ⟨⟨a, b⟩, hab, rfl⟩
    exact (List.of_mem_zip (List.mem_of_mem_drop hab)).1

theorem bsearchLoop_le (ring : List RingEntry) (h : Nat) (lo hi : Nat)
    (hle : lo ≤ hi) : bsearchLoop ring h lo hi ≤ hi := by
  induction lo, hi using bsearchLoop.induct ring h with
  | case1 lo hi hlt mid hcond ih =>
      rw [bsearchLoop]
      simp only [dif_pos hlt, if_pos hcond]
      have hmid : mid = (lo + hi) / 2 := rfl
      rw [← hmid]
      have := ih (by omega)
      omega
  | case2 lo hi hlt mid hcond ih =>
      rw [bsearchLoop]
      simp only [dif_pos hlt, if_neg hcond]
      have hmid : mid = (lo + hi) / 2 := rfl
      rw [← hmid]
      exact ih (by omega)
  | case3 lo hi hnlt =>
      rw [bsearchLoop]
      simp only [dif_neg hnlt]
      exact hle

theorem buildRing_server_mem (servers : List String) (e : RingEntry)
    (he : e ∈ buildRing servers) : e.server ∈ servers := by
  rw [buildRing, List.mem_mergeSort] at he
  rcases List.mem_flatMap.mp he with ⟨s, hs, he2⟩
  rcases List.mem_map.mp he2 with ⟨v, _, rfl⟩
  exact hs

theorem buildRing_length (servers : List String) :
    (buildRing servers).length = servers.length * VNODE := by
  rw [buildRing, List.length_mergeSort]
  induction servers with
  | nil => rfl
  | cons s rest ih =>
      simp only [List.flatMap_cons, List.length_append, List.length_map,
        List.length_range, List.length_cons] at *
      rw [ih]
      ring

theorem consistentLookup_mem (servers : List String) (hne : servers ≠ [])
    (hh : Nat) : consistentLookup servers (buildRing servers) hh ∈ servers := by
  have hlen : (buildRing servers).length = servers.length * VNODE :=
    buildRing_length servers
  have hpos : 0 < (buildRing servers).length := by
    rw [hlen, VNODE]
    have := List.length_pos.mpr hne
    omega
  have hrne : buildRing servers ≠ [] := by
    intro hcontra
    rw [hcontra] at hpos
    simp at hpos
  unfold consistentLookup
  rw [if_neg (by omega)]
  split
  · exact buildRing_server_mem servers _ (getD_mem _ 0 default hpos)
  · apply buildRing_server_mem servers
    apply getD_mem
    have := bsearchLoop_le (buildRing servers) hh 0
      ((buildRing servers).length - 1) (by omega)
    omega

theorem wrrFold_lt (cur : List Int) (n : Nat) (l : List (Nat × Int)) :
    ∀ acc : Nat, acc < n → (∀ p ∈ l, p.1 < n) →
      l.foldl (fun best p => if p.2 > cur.getD best 0 then p.1 else best) acc < n := by
  induction l with
  | nil => intro acc hacc _; exact hacc
  | cons p rest ih =>
      intro acc hacc hall
      simp only [List.foldl_cons]
      apply ih
      · split
        · exact hall p (List.mem_cons_self p rest)
        · exact hacc
      · intro q hq
        exact hall q (List.mem_cons_of_mem p hq)

theorem wrrBest_lt (cur : List Int) (h : cur ≠ []) :
    wrrBest cur < cur.length := by
  unfold wrrBest
  apply wrrFold_lt
  · exact List.length_pos.mpr h
  · intro p hp
    obtain ⟨i, x⟩ := p
    exact (List.mem_enum hp).1

theorem wrrPick_mem (servers : List String) (ws cur : List Int)
    (h : servers ≠ []) (hcur : cur.length = servers.length)
    (hws : ws.length = servers.length) :
    servers.getD (wrrStep ws cur).2 "" ∈ servers := by
  apply getD_mem
  have e2 : (wrrStep ws cur).2 = wrrBest (List.zipWith (· + ·) cur ws) := rfl
  rw [e2]
  have hzlen : (List.zipWith (· + ·) cur ws).length = servers.length := by
    rw [List.length_zipWith, hcur, hws]
    omega
  have hzne : List.zipWith (· + ·) cur ws ≠ [] := by
    intro hcontra
    have := List.length_pos.mpr h
    rw [hcontra] at hzlen
    simp at hzlen
    omega
  have := wrrBest_lt (List.zipWith (· + ·) cur ws) hzne
  omega

/-- Claim C7: `createLoadBalancer` on an empty backend list fails with
the `"No backend servers provided"` error for every strategy, and once
the backend list is non-empty every strategy's `pickTarget` returns a
member of that list — for any cursor, any random draw in [0,1), any
counter or connection state of matching shape, and any client key. -/
theorem claim_C7_select_total (strategy : Strategy)
    (weights : Option (List Int)) (servers : List String) (idx : Nat)
    (r : ℚ) (ws cur : List Int) (counts : List (String × Int))
    (key : String) (req : Request)
    (hne : servers ≠ []) (hr0 : 0 ≤ r) (hr1 : r < 1)
    (hcur : cur.length = servers.length) (hws : ws.length = servers.length) :
    createLoadBalancer strategy [] weights =
      .error "No backend servers provided" ∧
    (rrPick servers idx).1 ∈ servers ∧
    randomPick servers r ∈ servers ∧
    servers.getD (wrrStep ws cur).2 "" ∈ servers ∧
    (lcSelect servers counts).1 ∈ servers ∧
    (wlcSelect servers ws counts).1 ∈ servers ∧
    ipHashPick servers key ∈ servers ∧
    consistentPick servers req ∈ servers :=
  ⟨rfl, rrPick_mem servers idx hne, randomPick_mem servers r hne hr0 hr1,
    wrrPick_mem servers ws cur hne hcur hws, lcSelect_mem servers counts hne,
    wlcSelect_mem servers ws counts hne, ipHashPick_mem servers key hne,
    consistentLookup_mem servers hne _⟩

/-- Witness for claim C7 over the pool [A, B] with weights [2, 1],
cursor 3, random draw 1/3, empty connection counts, key "k". -/
theorem claim_C7_select_total_witness :
    createLoadBalancer .roundRobin [] (some [2, 1]) =
      .error "No backend servers provided" ∧
    (rrPick ["A", "B"] 3).1 ∈ ["A", "B"] ∧
    randomPick ["A", "B"] (1 / 3) ∈ ["A", "B"] ∧
    List.getD ["A", "B"] (wrrStep [2, 1] [0, 0]).2 "" ∈ ["A", "B"] ∧
    (lcSelect ["A", "B"] []).1 ∈ ["A", "B"] ∧
    (wlcSelect ["A", "B"] [2, 1] []).1 ∈ ["A", "B"] ∧
    ipHashPick ["A", "B"] "k" ∈ ["A", "B"] ∧
    consistentPick ["A", "B"] ⟨some "k", none⟩ ∈ ["A", "B"] :=
  claim_C7_select_total .roundRobin (some [2, 1]) ["A", "B"] 3 (1 / 3)
    [2, 1] [0, 0] [] "k" ⟨some "k", none⟩ (by decide) (by norm_num)
    (by norm_num) (by decide) (by decide)

/-- Claim C10: a request with neither an identity header nor a network
address yields the empty-string client key for the hash-based
strategies (never a missing-identity failure), both hash strategies
still return a pool member for it, and every such identity-less request
maps to the same backend as any other for a fixed pool. -/
theorem claim_C10_keyless_hash (servers : List String) (r1 r2 : Request)
    (hne : servers ≠ []) (h1 : clientKeyOpt r1 = none)
    (h2 : clientKeyOpt r2 = none) :
    lbClientKey r1 = "" ∧
    ipHashPick servers (lbClientKey r1) ∈ servers ∧
    consistentPick servers r1 ∈ servers ∧
    ipHashPick servers (lbClientKey r1) = ipHashPick servers (lbClientKey r2) ∧
    consistentPick servers r1 = consistentPick servers r2 := by
  have e1 : lbClientKey r1 = "" := by rw [lbClientKey, h1]; rfl
  have e2 : lbClientKey r2 = "" := by rw [lbClientKey, h2]; rfl
  refine ⟨e1, ipHashPick_mem servers _ hne, consistentLookup_mem servers hne _,
    by rw [e1, e2], ?_⟩
  unfold consistentPick
  rw [e1, e2]

/-- Witness for claim C10: both keyless requests taken as
⟨none, none⟩ over the pool [A, B]. -/
theorem claim_C10_keyless_hash_witness :
    lbClientKey ⟨none, none⟩ = "" ∧
    ipHashPick ["A", "B"] (lbClientKey ⟨none, none⟩) ∈ ["A", "B"] ∧
    consistentPick ["A", "B"] ⟨none, none⟩ ∈ ["A", "B"] ∧
    ipHashPick ["A", "B"] (lbClientKey ⟨none, none⟩) =
      ipHashPick ["A", "B"] (lbClientKey ⟨none, none⟩) ∧
    consistentPick ["A", "B"] ⟨none, none⟩ =
      consistentPick ["A", "B"] ⟨none, none⟩ :=
  claim_C10_keyless_hash ["A", "B"] ⟨none, none⟩ ⟨none, none⟩ (by decide)
    rfl rfl

/-! ### Claim C6: connection counters never go negative -/

/-- An operation against a connection-tracking balancer: one
`pickTarget` call or one `release(target)` call. -/
inductive LBOp where
  | select
  | release (target : String)
deriving DecidableEq, Repr

/-- Apply one operation to the least-connections counters. -/
def lcApply (servers : List String) (m : List (String × Int)) :
    LBOp → List (String × Int)
  | .select => (lcSelect servers m).2
  | .release t => lcRelease m t

/-- Apply one operation to the weighted-least-connections counters. -/
def wlcApply (servers : List String) (ws : List Int)
    (m : List (String × Int)) : LBOp → List (String × Int)
  | .select => (wlcSelect servers ws m).2
  | .release t => lcRelease m t

/-- The initial counters built by `createLoadBalancer`: every server
mapped to 0. -/
def lcInit (servers : List String) : List (String × Int) :=
  servers.foldl (fun m s => aset m s 0) []

/-- Counters reachable under least connections after a sequence of
operations. -/
def lcRun (servers : List String) (ops : List LBOp) : List (String × Int) :=
  ops.foldl (lcApply servers) (lcInit servers)

/-- Counters reachable under weighted least connections after a
sequence of operations. -/
def wlcRun (servers : List String) (ws : List Int) (ops : List LBOp) :
    List (String × Int) :=
  ops.foldl (wlcApply servers ws) (lcInit servers)

theorem aset_nonneg (m : List (String × Int)) (k : String) (v : Int)
    (hm : ∀ p ∈ m, 0 ≤ p.2) (hv : 0 ≤ v) :
    ∀ p ∈ aset m k v, 0 ≤ p.2 := by
  induction m with
  | nil =>
      intro p hp
      simp only [aset, List.mem_singleton] at hp
      rw [hp]
      exact hv
  | cons q rest ih =>
      obtain ⟨k0, w0⟩ := q
      intro p hp
      simp only [aset] at hp
      split at hp
      · rcases List.mem_cons.mp hp with h | h
        · rw [h]; exact hv
        · exact hm p (List.mem_cons_of_mem _ h)
      · rcases List.mem_cons.mp hp with h | h
        · rw [h]
          exact hm (k0, w0) (List.mem_cons_self _ _)
        · exact ih (fun q hq => hm q (List.mem_cons_of_mem _ hq)) p h

theorem aget_nonneg (m : List (String × Int)) (k : String) (v : Int)
    (hm : ∀ p ∈ m, 0 ≤ p.2) (hv : aget m k = some v) : 0 ≤ v := by
  induction m with
  | nil => simp [aget] at hv
  | cons q rest ih =>
      obtain ⟨k0, w0⟩ := q
      simp only [aget] at hv
      split at hv
      · have hw : w0 = v := by injection hv
        have h0 := hm (k0, w0) (List.mem_cons_self _ _)
        rw [← hw]
        exact h0
      · exact ih (fun q hq => hm q (List.mem_cons_of_mem _ hq)) hv

theorem getD_succ_nonneg (m : List (String × Int)) (k : String)
    (hm : ∀ p ∈ m, 0 ≤ p.2) : 0 ≤ (aget m k).getD 0 + 1 := by
  cases hag : aget m k with
  | none => simp
  | some v =>
      have := aget_nonneg m k v hm hag
      simp
      omega

theorem lcSelect_nonneg (servers : List String) (m : List (String × Int))
    (hm : ∀ p ∈ m, 0 ≤ p.2) : ∀ p ∈ (lcSelect servers m).2, 0 ≤ p.2 := by
  have e : (lcSelect servers m).2 =
      aset m (lcSelect servers m).1
        ((aget m (lcSelect servers m).1).getD 0 + 1) := rfl
  rw [e]
  exact aset_nonneg m _ _ hm (getD_succ_nonneg m _ hm)

theorem wlcSelect_nonneg (servers : List String) (ws : List Int)
    (m : List (String × Int)) (hm : ∀ p ∈ m, 0 ≤ p.2) :
    ∀ p ∈ (wlcSelect servers ws m).2, 0 ≤ p.2 := by
  have e : (wlcSelect servers ws m).2 =
      aset m (wlcSelect servers ws m).1
        ((aget m (wlcSelect servers ws m).1).getD 0 + 1) := rfl
  rw [e]
  exact aset_nonneg m _ _ hm (getD_succ_nonneg m _ hm)

theorem lcRelease_nonneg (m : List (String × Int)) (t : String)
    (hm : ∀ p ∈ m, 0 ≤ p.2) : ∀ p ∈ lcRelease m t, 0 ≤ p.2 := by
  unfold lcRelease
  exact aset_nonneg m _ _ hm (le_max_left 0 _)

theorem lcInit_nonneg (servers : List String) :
    ∀ p ∈ lcInit servers, 0 ≤ p.2 := by
  unfold lcInit
  have general : ∀ (l : List String) (m : List (String × Int)),
      (∀ p ∈ m, 0 ≤ p.2) → ∀ p ∈ l.foldl (fun m s => aset m s 0) m, 0 ≤ p.2 := by
    intro l
    induction l with
    | nil => intro m hm; exact hm
    | cons s rest ih =>
        intro m hm
        exact ih (aset m s 0) (aset_nonneg m s 0 hm le_rfl)
  exact general servers [] (by simp)

theorem lcRun_nonneg (servers : List String) (ops : List LBOp) :
    ∀ p ∈ lcRun servers ops, 0 ≤ p.2 := by
  unfold lcRun
  have general : ∀ (l : List LBOp) (m : List (String × Int)),
      (∀ p ∈ m, 0 ≤ p.2) → ∀ p ∈ l.foldl (lcApply servers) m, 0 ≤ p.2 := by
    intro l
    induction l with
    | nil => intro m hm; exact hm
    | cons op rest ih =>
        intro m hm
        apply ih
        cases op with
        | select => exact lcSelect_nonneg servers m hm
        | release t => exact lcRelease_nonneg m t hm
  exact general ops (lcInit servers) (lcInit_nonneg servers)

theorem wlcRun_nonneg (servers : List String) (ws : List Int)
    (ops : List LBOp) : ∀ p ∈ wlcRun servers ws ops, 0 ≤ p.2 := by
  unfold wlcRun
  have general : ∀ (l : List LBOp) (m : List (String × Int)),
      (∀ p ∈ m, 0 ≤ p.2) → ∀ p ∈ l.foldl (wlcApply servers ws) m, 0 ≤ p.2 := by
    intro l
    induction l with
    | nil => intro m hm; exact hm
    | cons op rest ih =>
        intro m hm
        apply ih
        cases op with
        | select => exact wlcSelect_nonneg servers ws m hm
        | release t => exact lcRelease_nonneg m t hm
  exact general ops (lcInit servers) (lcInit_nonneg servers)

/-- Claim C6: every state reachable under least connections by any
sequence of `pickTarget` and `release` calls keeps every stored
connection count at 0 or above, and independently so does every state
reachable under weighted least connections (each with its own servers,
weights and operation sequence); `pickTarget` of either strategy raises
its chosen backend's count by exactly 1, `release` stores the old count
minus one clamped at zero, and in particular `release` on a backend
whose count is 0 stores 0 again — never a negative value. -/
theorem claim_C6_counts_nonneg :
    (∀ (servers : List String) (ops : List LBOp) (p : String × Int),
      p ∈ lcRun servers ops → 0 ≤ p.2) ∧
    (∀ (servers : List String) (ws : List Int) (ops : List LBOp)
      (p : String × Int), p ∈ wlcRun servers ws ops → 0 ≤ p.2) ∧
    (∀ (m : List (String × Int)) (t : String),
      aget (lcRelease m t) t = some (max 0 ((aget m t).getD 1 - 1))) ∧
    (∀ (m : List (String × Int)) (t : String), aget m t = some 0 →
      aget (lcRelease m t) t = some 0) ∧
    (∀ (servers : List String) (m : List (String × Int)),
      aget (lcSelect servers m).2 (lcSelect servers m).1 =
        some ((aget m (lcSelect servers m).1).getD 0 + 1)) ∧
    (∀ (servers : List String) (ws : List Int) (m : List (String × Int)),
      aget (wlcSelect servers ws m).2 (wlcSelect servers ws m).1 =
        some ((aget m (wlcSelect servers ws m).1).getD 0 + 1)) := by
  refine ⟨fun servers ops p hp => lcRun_nonneg servers ops p hp,
    fun servers ws ops p hp => wlcRun_nonneg servers ws ops p hp,
    fun m t => aget_aset_same m _ _, ?_,
    fun servers m => aget_aset_same m _ _,
    fun servers ws m => aget_aset_same m _ _⟩
  intro m t hzero
  unfold lcRelease
  rw [hzero]
  simpa using aget_aset_same m t 0

/-- Witness for claim C6: membership hypotheses discharged on the pool
[A, B] after two releases of B in a row (the second with no matching
select) under plain least connections, and under weighted least
connections with weights [3, 1]; the release-on-zero hypothesis on a
map holding B at 0. -/
theorem claim_C6_counts_nonneg_witness :
    (0 : Int) ≤ (("A", (0 : Int))).2 ∧
    (0 : Int) ≤ (("B", (0 : Int))).2 ∧
    aget (lcRelease [("B", (5 : Int))] "B") "B" = some (max 0 (5 - 1)) ∧
    aget (lcRelease [("B", 0)] "B") "B" = some 0 ∧
    aget (lcSelect ["A", "B"] []).2 (lcSelect ["A", "B"] []).1 =
      some ((aget ([] : List (String × Int))
        (lcSelect ["A", "B"] []).1).getD 0 + 1) ∧
    aget (wlcSelect ["A", "B"] [3, 1] []).2 (wlcSelect ["A", "B"] [3, 1] []).1 =
      some ((aget ([] : List (String × Int))
        (wlcSelect ["A", "B"] [3, 1] []).1).getD 0 + 1) :=
  ⟨claim_C6_counts_nonneg.1 ["A", "B"] [.release "B", .release "B"] ("A", 0)
      (by decide),
    claim_C6_counts_nonneg.2.1 ["A", "B"] [3, 1] [.release "B", .release "B"]
      ("B", 0) (by decide),
    claim_C6_counts_nonneg.2.2.1 [("B", 5)] "B",
    claim_C6_counts_nonneg.2.2.2.1 [("B", 0)] "B" (by decide),
    claim_C6_counts_nonneg.2.2.2.2.1 ["A", "B"] [],
    claim_C6_counts_nonneg.2.2.2.2.2 ["A", "B"] [3, 1] []⟩

/-! ### Claim C1: binary search refines the linear-scan ring lookup -/

theorem sortedD_of_pairwise (ring : List RingEntry)
    (hp : List.Pairwise (fun a b : RingEntry => a.hash ≤ b.hash) ring) :
    ∀ i j : Nat, i ≤ j → j < ring.length →
      (ring.getD i default).hash ≤ (ring.getD j default).hash := by
  intro i j hij hj
  rcases Nat.eq_or_lt_of_le hij with rfl | hlt
  · exact le_rfl
  · have hi : i < ring.length := lt_trans hlt hj
    rw [List.getD_eq_getElem _ _ hi, List.getD_eq_getElem _ _ hj]
    exact List.pairwise_iff_getElem.mp hp i j hi hj hlt

theorem bsearchLoop_spec (ring : List RingEntry) (h : Nat)
    (hs : ∀ i j : Nat, i ≤ j → j < ring.length →
      (ring.getD i default).hash ≤ (ring.getD j default).hash) :
    ∀ lo hi : Nat, hi < ring.length → lo ≤ hi →
      (∀ i : Nat, i < lo → (ring.getD i default).hash < h) →
      h ≤ (ring.getD hi default).hash →
      lo ≤ bsearchLoop ring h lo hi ∧ bsearchLoop ring h lo hi ≤ hi ∧
        (∀ i : Nat, i < bsearchLoop ring h lo hi →
          (ring.getD i default).hash < h) ∧
        h ≤ (ring.getD (bsearchLoop ring h lo hi) default).hash := by
  intro lo hi
  induction lo, hi using bsearchLoop.induct ring h with
  | case1 lo hi hlt mid hcond ih =>
      intro hhi hle hlow hhigh
      have hmid : mid = (lo + hi) / 2 := rfl
      rw [bsearchLoop]
      simp only [dif_pos hlt, if_pos hcond]
      rw [← hmid]
      have hr := ih (by omega) (by omega) hlow hcond
      refine ⟨hr.1, ?_, hr.2.2.1, hr.2.2.2⟩
      have := hr.2.1
      omega
  | case2 lo hi hlt mid hcond ih =>
      intro hhi hle hlow hhigh
      have hmid : mid = (lo + hi) / 2 := rfl
      rw [bsearchLoop]
      simp only [dif_pos hlt, if_neg hcond]
      rw [← hmid]
      have hmidlt : (ring.getD mid default).hash < h := by omega
      have hlow2 : ∀ i : Nat, i < mid + 1 → (ring.getD i default).hash < h := by
        intro i hi2
        calc (ring.getD i default).hash
            ≤ (ring.getD mid default).hash := hs i mid (by omega) (by omega)
          _ < h := hmidlt
      have hr := ih (by omega) (by omega) hlow2 hhigh
      refine ⟨?_, hr.2.1, hr.2.2.1, hr.2.2.2⟩
      have := hr.1
      omega
  | case3 lo hi hnlt =>
      intro hhi hle hlow hhigh
      rw [bsearchLoop]
      simp only [dif_neg hnlt]
      have heq : lo = hi := by omega
      exact ⟨le_rfl, by omega, hlow, by rw [heq]; exact hhigh⟩

theorem find_eq_of_least {α : Type} (p : α → Bool) (d : α) :
    ∀ (l : List α) (r : Nat), r < l.length →
      (∀ i : Nat, i < r → p (l.getD i d) = false) →
      p (l.getD r d) = true →
      l.find? p = some (l.getD r d) := by
  intro l
  induction l with
  | nil =>
      intro r hr
      simp at hr
  | cons a t ih =>
      intro r hr hmin hp
      cases r with
      | zero =>
          have hpa : p a = true := hp
          rw [List.find?_cons_of_pos t hpa]
          rfl
      | succ r2 =>
          have h0 : p a = false := hmin 0 (Nat.succ_pos r2)
          rw [List.find?_cons_of_neg t (by simp [h0])]
          exact ih r2 (by simpa using hr) (fun i hi2 => hmin (i + 1) (by omega))
            hp

theorem buildRing_sorted (servers : List String) :
    List.Pairwise (fun a b : RingEntry => a.hash ≤ b.hash)
      (buildRing servers) := by
  rw [buildRing]
  have h := @List.sorted_mergeSort RingEntry
    (fun a b : RingEntry => decide (a.hash ≤ b.hash))
    (fun a b c h1 h2 => by
      simp only [decide_eq_true_eq] at *
      omega)
    (fun a b => by
      simp only [Bool.or_eq_true, decide_eq_true_eq]
      omega)
    (servers.flatMap fun server => (List.range VNODE).map fun v =>
      ⟨fnv1aHash (server ++ "#" ++ toString v), server⟩)
  exact h.imp (fun hab => by simpa using hab)

theorem consistentLookup_eq_refLookup (servers : List String)
    (ring : List RingEntry)
    (hp : List.Pairwise (fun a b : RingEntry => a.hash ≤ b.hash) ring)
    (hne : ring ≠ []) (h : Nat) :
    consistentLookup servers ring h = refLookup ring h := by
  have hs := sortedD_of_pairwise ring hp
  have hlen : 0 < ring.length := List.length_pos.mpr hne
  have hheadD : ring.headD default = ring.getD 0 default := by
    cases ring with
    | nil => exact absurd rfl hne
    | cons e t => rfl
  unfold consistentLookup refLookup
  rw [if_neg (by omega)]
  by_cases hcase : h ≤ (ring.getD 0 default).hash ∨
      (ring.getD (ring.length - 1) default).hash < h
  · rw [if_pos hcase]
    by_cases h0 : h ≤ (ring.getD 0 default).hash
    · cases ring with
      | nil => exact absurd rfl hne
      | cons e t =>
          rw [List.find?_cons_of_pos t (by simpa using h0)]
          rfl
    · have hnone : ring.find? (fun e => decide (h ≤ e.hash)) = none := by
        rw [List.find?_eq_none]
        intro e he
        simp only [decide_eq_true_eq]
        rcases List.mem_iff_getElem.mp he with ⟨i, hi, rfl⟩
        have hle2 : (ring.getD i default).hash ≤
            (ring.getD (ring.length - 1) default).hash :=
          hs i (ring.length - 1) (by omega) (by omega)
        rw [List.getD_eq_getElem _ _ hi] at hle2
        rcases hcase with hc | hc
        · exact absurd hc h0
        · omega
      rw [hnone, hheadD]
  · rw [if_neg hcase]
    push_neg at hcase
    obtain ⟨hgt, hle2⟩ := hcase
    have hspec := bsearchLoop_spec ring h hs 0 (ring.length - 1) (by omega)
      (by omega) (fun i hi => absurd hi (Nat.not_lt_zero i)) hle2
    obtain ⟨_, hub, hmin, hge⟩ := hspec
    have hfind := find_eq_of_least (fun e => decide (h ≤ e.hash)) default ring
      (bsearchLoop ring h 0 (ring.length - 1)) (by omega)
      (fun i hi2 => by
        simp only [decide_eq_false_iff_not, not_le]
        exact hmin i hi2)
      (by simpa using hge)
    rw [hfind]

/-- Claim C1: for the consistent-hash strategy on any non-empty backend
list, the ring holds `servers.length × 100` virtual nodes sorted
ascending by hash, and for every possible key hash the implementation's
binary-search lookup (with its wrap rule for a hash at or below the
smallest or above the largest ring hash) returns exactly the backend of
the first ring entry whose hash is ≥ the key's hash, wrapping to the
first ring entry when no entry qualifies — the linear-scan reference
`refLookup`. -/
theorem claim_C1_consistent_hash_refinement (servers : List String)
    (h : Nat) (hne : servers ≠ []) :
    consistentLookup servers (buildRing servers) h =
      refLookup (buildRing servers) h ∧
    (buildRing servers).length = servers.length * VNODE ∧
    List.Pairwise (fun a b : RingEntry => a.hash ≤ b.hash)
      (buildRing servers) := by
  have hlenpos : 0 < (buildRing servers).length := by
    rw [buildRing_length servers, VNODE]
    have := List.length_pos.mpr hne
    omega
  have hrne : buildRing servers ≠ [] := by
    intro hcontra
    rw [hcontra] at hlenpos
    simp at hlenpos
  exact ⟨consistentLookup_eq_refLookup servers (buildRing servers)
      (buildRing_sorted servers) hrne h,
    buildRing_length servers, buildRing_sorted servers⟩

/-- Witness for claim C1 at the pool [A, B] and key hash 0. -/
theorem claim_C1_consistent_hash_refinement_witness :
    consistentLookup ["A", "B"] (buildRing ["A", "B"]) 0 =
      refLookup (buildRing ["A", "B"]) 0 ∧
    (buildRing ["A", "B"]).length = (["A", "B"] : List String).length * VNODE ∧
    List.Pairwise (fun a b : RingEntry => a.hash ≤ b.hash)
      (buildRing ["A", "B"]) :=
  claim_C1_consistent_hash_refinement ["A", "B"] 0 (by decide)

end Gateway
